import Mathlib

/-!
Shallow embedding of the `bw-img` crate (sources: `src/lib.rs`, `src/img.rs`,
`src/file.rs`).  Machine integers (`u8`, `u32`, `u64`, `usize`) are modelled as
`Nat`; all the arithmetic in the crate stays far below the relevant moduli for
the inputs considered (explicit hypotheses such as `width < 2^32` are added
where a claim depends on the `u32` range), so no wrap-around is modelled.
Byte sources/sinks (`std::io::Read` / `Write`) are modelled as `List Nat` of
the bytes still available / written.
-/

/-! ## Error types (`src/lib.rs`) -/

/-- `BWDataErr` from `src/lib.rs`.  `Custom` carries a boxed dynamic error in
the source; the payload is irrelevant to every claim and is dropped here. -/
inductive BWDataErr where
  | Custom : BWDataErr
  | WrongSize : ℕ → ℕ → ℕ → BWDataErr
  deriving DecidableEq, Repr

/-- `BWError` from `src/lib.rs`.  `FileHeader` carries a `format!`ted message in
the source; the model keeps the fixed text of the message and drops the
formatted byte payload (`{:?}` part), which is enough to tell the bad-magic
message apart from the bad-version message.  `Io` errors are opaque in the
source (propagated `std::io::Error`); the only io error a pure byte-list
source can produce is an unexpected EOF, so a single constructor suffices. -/
inductive BWError where
  | Compression : ℕ → BWError → ℕ → BWError
  | FileHeader : String → BWError
  | IoError : BWError
  | DataErr : BWDataErr → BWError
  deriving DecidableEq, Repr

/-! ## Geometry (`src/img.rs`: `BWImageSize`) -/

/-- `BWImageSize` from `src/img.rs`; `width`/`height` are `u32` in the source. -/
structure BWImageSize where
  width : ℕ
  height : ℕ
  deriving DecidableEq, Repr

/-- `BWImageSize::get_padded_bytes_len` from `src/img.rs`:
`((self.width as u64 + 7) / 8) * self.height as u64`.  For `u32` width/height
the `u64` arithmetic never overflows, so plain `Nat` arithmetic is exact. -/
def BWImageSize.get_padded_bytes_len (s : BWImageSize) : ℕ :=
  ((s.width + 7) / 8) * s.height

/-- `BWImage` from `src/img.rs`: size plus packed pixel bytes. -/
structure BWImage where
  size : BWImageSize
  pixels : List ℕ
  deriving DecidableEq, Repr

/-! ## IEEE-754 binary32 model for `is_white` (`src/img.rs`)

`is_white` computes `(0.299 * r as f32 + 0.587 * g as f32 + 0.114 * b as f32) as u8`.
All values arising in that expression are nonnegative dyadic rationals, so an
`f32` value is modelled as `num / 2 ^ exp` with `num exp : ℕ`, and each `f32`
operation rounds its exact dyadic result to 24 significant bits with
round-to-nearest, ties-to-even (the IEEE-754 default used by Rust).  In the
range of values arising here (all below `2^24`, all well above the subnormal
range) this is exactly binary32 arithmetic. -/

/-- A nonnegative dyadic rational `num / 2 ^ exp`. -/
structure Dyadic where
  num : ℕ
  exp : ℕ
  deriving DecidableEq, Repr

/-- `2 ^ n` by structural recursion (kernel-reducible). -/
def twoPow : ℕ → ℕ
  | 0 => 1
  | n + 1 => 2 * twoPow n

/-- Number of low-order bits that must be rounded away to leave a 24-bit
significand: the least `k` with `n / 2^k < 2^24` (fuel-bounded; fuel 64 covers
every number arising in the luma computation). -/
def excessBits : ℕ → ℕ → ℕ
  | 0, _ => 0
  | fuel + 1, n => if n < 16777216 then 0 else excessBits fuel (n / 2) + 1

/-- Round a nonnegative dyadic to 24 significant bits, round-to-nearest
ties-to-even.  Models the rounding step of each binary32 operation (no
overflow/underflow handling: the luma computation stays in the normal range). -/
def roundF32 (d : Dyadic) : Dyadic :=
  let k := excessBits 64 d.num
  if k = 0 then d
  else
    let p := twoPow k
    let q := d.num / p
    let r := d.num % p
    let half := p / 2
    let q' := if half < r then q + 1 else if r < half then q else q + q % 2
    ⟨q', d.exp - k⟩

/-- Exact sum of two dyadics (before rounding). -/
def dAdd (a b : Dyadic) : Dyadic :=
  let e := max a.exp b.exp
  ⟨a.num * twoPow (e - a.exp) + b.num * twoPow (e - b.exp), e⟩

/-- Exact product of two dyadics (before rounding). -/
def dMul (a b : Dyadic) : Dyadic :=
  ⟨a.num * b.num, a.exp + b.exp⟩

/-- binary32 addition: exact sum, then rounding. -/
def f32add (a b : Dyadic) : Dyadic := roundF32 (dAdd a b)

/-- binary32 multiplication: exact product, then rounding. -/
def f32mul (a b : Dyadic) : Dyadic := roundF32 (dMul a b)

/-- Rust's `as u8` cast on a nonnegative float: truncate toward zero,
saturating at 255. -/
def dTruncU8 (d : Dyadic) : ℕ :=
  min (d.num / twoPow d.exp) 255

/-- The binary32 value of the literal `0.299`: `10032775 / 2^25`
(`299/1000 * 2^25 = 10032775.168`, rounds to `10032775`). -/
def c0299 : Dyadic := ⟨10032775, 25⟩

/-- The binary32 value of the literal `0.587`: `9848226 / 2^24`
(`587/1000 * 2^24 = 9848225.792`, rounds to `9848226`). -/
def c0587 : Dyadic := ⟨9848226, 24⟩

/-- The binary32 value of the literal `0.114`: `15300821 / 2^27`
(`114/1000 * 2^27 = 15300820.992`, rounds to `15300821`). -/
def c0114 : Dyadic := ⟨15300821, 27⟩

/-- The `gray_value` computed inside `is_white` (`src/img.rs`):
`(0.299 * r as f32 + 0.587 * g as f32 + 0.114 * b as f32) as u8`, with the
left-associated f32 additions of the source.  `r as f32` is exact for
`r ≤ 255`, so the channel values enter as `⟨r, 0⟩`. -/
def gray_value (r g b : ℕ) : ℕ :=
  dTruncU8 (f32add (f32add (f32mul c0299 ⟨r, 0⟩) (f32mul c0587 ⟨g, 0⟩))
    (f32mul c0114 ⟨b, 0⟩))

/-- `is_white` from `src/img.rs`: `gray_value > threshold`. -/
def is_white (r g b threshold : ℕ) : Bool :=
  threshold < gray_value r g b

/-! ## Bit packing (`src/img.rs`) -/

/-- Helper for `to_bw_data_byte`: the source's indexed loop
`for (i, bit) in data.iter().enumerate() { if *bit { bw_bit |= 1 << (7 - i) } }`,
with `i` the running index.  The source only ever calls it with at most 8 bits
(for longer input `1 << (7 - i)` would already panic in Rust). -/
def to_bw_data_byte_aux : ℕ → List Bool → ℕ
  | _, [] => 0
  | i, bit :: rest =>
      (if bit then twoPow (7 - i) else 0) ||| to_bw_data_byte_aux (i + 1) rest

/-- `to_bw_data_byte` from `src/img.rs`: pack up to 8 pixels into one byte,
high bit first. -/
def to_bw_data_byte (data : List Bool) : ℕ :=
  to_bw_data_byte_aux 0 data

/-- Fuel-bounded slicing used to model Rust's `slice::chunks`; fuel is
instantiated with the list length, which is enough for any chunk size ≥ 1. -/
def chunksAux (n : ℕ) : ℕ → List α → List (List α)
  | 0, _ => []
  | _, [] => []
  | fuel + 1, l => l.take n :: chunksAux n fuel (l.drop n)

/-- Rust's `slice::chunks(n)` (for `n ≥ 1`, the only way the source uses it):
split into consecutive chunks of length `n`, the last one possibly shorter. -/
def chunksList (n : ℕ) (l : List α) : List (List α) :=
  chunksAux n l.length l

/-! ## `RgbData` (`src/img.rs`) -/

/-- `RgbData` from `src/img.rs` (fields in source order); `data` is the flat
interleaved RGB byte buffer, 3 bytes per pixel. -/
structure RgbData where
  data : List ℕ
  height : ℕ
  width : ℕ
  bw_threshold : ℕ
  deriving DecidableEq, Repr

/-- The per-pixel step of `RgbData::to_bw_data`:
`is_white(pix[0], pix[1], pix[2], threshold)` on one 3-byte chunk.  `none`
models the index-out-of-bounds panic the source hits when the chunk has fewer
than 3 bytes (buffer length not divisible by 3). -/
def pixIsWhite (threshold : ℕ) : List ℕ → Option Bool
  | r :: g :: b :: _ => some (is_white r g b threshold)
  | _ => none

/-- `RgbData::to_bw_data` from `src/img.rs`:
`data.chunks(3*8).map(|c| to_bw_data_byte(c.chunks(3).map(is_white...))).collect()`.
The outer `Option` layer models panics (see `pixIsWhite`); the `Except` layer
is the `Result<Vec<u8>, BWDataErr>` of the source, which this function only
ever fulfils with `Ok` — no code path constructs an error. -/
def RgbData.to_bw_data (d : RgbData) : Option (Except BWDataErr (List ℕ)) :=
  ((chunksList 24 d.data).mapM fun c =>
    ((chunksList 3 c).mapM (pixIsWhite d.bw_threshold)).map to_bw_data_byte).map
    Except.ok

/-- `RgbData::image_config` from `src/img.rs`. -/
def RgbData.image_config (d : RgbData) : BWImageSize :=
  ⟨d.width, d.height⟩

/-! ## `NormalImage` (`src/img.rs`, `img` feature)

`NormalImage` wraps an externally decoded `image::DynamicImage`; the external
crate's `pixels()` iterator yields `(x, y, rgba)` row-major, left-to-right,
top-to-bottom, over exactly the `width * height` in-bounds pixels.  The image
content is modelled as a function from coordinates to an RGB triple. -/

/-- Model of a decoded image handle: geometry plus per-coordinate RGB content
(the `A` channel of the external crate's RGBA pixels is never read). -/
structure NormalImage where
  width : ℕ
  height : ℕ
  px : ℕ → ℕ → ℕ × ℕ × ℕ
  threshold : ℕ

/-- One step of the `NormalImage::to_bw_data` loop body, over state
`(buf, bytes)` and the yielded `(x, pixel)` (the `y` of the source's pattern
is unused): push `is_white`, and flush `buf` when `x == width - 1` or
`buf.len() == 8`. -/
def normalStep (width threshold : ℕ) (st : List Bool × List ℕ)
    (p : ℕ × (ℕ × ℕ × ℕ)) : List Bool × List ℕ :=
  let buf := st.1 ++ [is_white p.2.1 p.2.2.1 p.2.2.2 threshold]
  if p.1 = width - 1 ∨ buf.length = 8 then ([], st.2 ++ [to_bw_data_byte buf])
  else (buf, st.2)

/-- The row-major pixel enumeration of the external crate's `pixels()`,
paired with the `x` coordinate consumed by the loop. -/
def pixelsRowMajor (img : NormalImage) : List (ℕ × (ℕ × ℕ × ℕ)) :=
  (List.range img.height).flatMap fun y =>
    (List.range img.width).map fun x => (x, img.px x y)

/-- `NormalImage::to_bw_data` from `src/img.rs`: fold the loop body over the
row-major pixel stream and return the accumulated bytes (the source always
returns `Ok`). -/
def NormalImage.to_bw_data (img : NormalImage) : List ℕ :=
  ((pixelsRowMajor img).foldl (normalStep img.width img.threshold) ([], [])).2

/-- `NormalImage::image_config` from `src/img.rs`. -/
def NormalImage.image_config (img : NormalImage) : BWImageSize :=
  ⟨img.width, img.height⟩

/-- The flat interleaved RGB buffer corresponding to a decoded image's
content: 3 bytes per pixel, row-major (the input contract shared by
`RgbData::new` and the video path). -/
def rgbFlatten (px : ℕ → ℕ → ℕ × ℕ × ℕ) (width height : ℕ) : List ℕ :=
  (List.range height).flatMap fun y =>
    (List.range width).flatMap fun x =>
      [(px x y).1, (px x y).2.1, (px x y).2.2]

/-- The row-major list of pixel values of a decoded image (the same
enumeration as `pixelsRowMajor`, values only). -/
def pixList (px : ℕ → ℕ → ℕ × ℕ × ℕ) (width height : ℕ) :
    List (ℕ × ℕ × ℕ) :=
  (List.range height).flatMap fun y => (List.range width).map fun x => px x y

/-- Interleave a pixel list into flat RGB bytes (3 per pixel). -/
def flatten3 (ps : List (ℕ × ℕ × ℕ)) : List ℕ :=
  ps.flatMap fun p => [p.1, p.2.1, p.2.2]

/-- `is_white` on a pixel triple. -/
def isw3 (t : ℕ) (p : ℕ × ℕ × ℕ) : Bool :=
  is_white p.1 p.2.1 p.2.2 t

/-- Pack a flat pixel-bit stream 8 bits per byte, MSB first (the common
normal form both conversion paths are compared against). -/
def packFlat (bs : List Bool) : List ℕ :=
  (chunksList 8 bs).map to_bw_data_byte

/-! ## File codec (`src/file.rs`) -/

/-- The magic bytes `b"BWIM"`. -/
def MAGIC_NUMBER : List ℕ := [66, 87, 73, 77]

/-- `u32::to_le_bytes`. -/
def le32 (n : ℕ) : List ℕ :=
  [n % 256, n / 256 % 256, n / 65536 % 256, n / 16777216 % 256]

/-- `u32::from_le_bytes` on a 4-byte slice. -/
def fromLe32 (bs : List ℕ) : ℕ :=
  bs.getD 0 0 + 256 * bs.getD 1 0 + 65536 * bs.getD 2 0 + 16777216 * bs.getD 3 0

/-- The fixed message text of the bad-magic `BWError::FileHeader` (the source
appends the offending bytes via `{:?}`; the payload is dropped, see
`BWError`). -/
def magicErrMsg : String := "img invalid magic number"

/-- The fixed message text of the bad-version `BWError::FileHeader`. -/
def versionErrMsg : String := "invalid version number"

/-- `parse_header` from `src/file.rs`.  `read_exact` into a 16-byte buffer
fails with `ErrorKind::UnexpectedEof` whenever fewer than 16 bytes are
available — whether 0 or 1–15 — and the source turns exactly that error kind
into `Ok(None)`; on a pure byte-list source no other io error can occur.
Otherwise the magic, version, width and height fields are checked/read
little-endian from the 16-byte header. -/
def parse_header (input : List ℕ) : Except BWError (Option BWImageSize) :=
  if input.length < 16 then .ok none
  else
    let header := input.take 16
    if header.take 4 ≠ MAGIC_NUMBER then .error (.FileHeader magicErrMsg)
    else if fromLe32 ((header.drop 4).take 4) ≠ 1 then
      .error (.FileHeader versionErrMsg)
    else .ok (some ⟨fromLe32 ((header.drop 8).take 4),
      fromLe32 ((header.drop 12).take 4)⟩)

/-- `parse_file` from `src/file.rs`: parse the header, then `read_exact` a
body of `get_padded_bytes_len` bytes (a short body read is
`ErrorKind::UnexpectedEof`, propagated as an io error by `?`).  The returned
pair is `(BWImage, len + 16)` as in the source; the model additionally
returns the bytes remaining after the consumed frame, standing for the
advanced read cursor. -/
def parse_file (input : List ℕ) :
    Except BWError (Option ((BWImage × ℕ) × List ℕ)) :=
  match parse_header input with
  | .error e => .error e
  | .ok none => .ok none
  | .ok (some size) =>
      let rest := input.drop 16
      let len := size.get_padded_bytes_len
      if rest.length < len then .error .IoError
      else .ok (some ((⟨size, rest.take len⟩, len + 16), rest.drop len))

/-- `write_header` from `src/file.rs`: magic, version 1, width, height, all
little-endian. -/
def write_header (config : BWImageSize) : List ℕ :=
  MAGIC_NUMBER ++ le32 1 ++ le32 config.width ++ le32 config.height

/-- `encode_file` from `src/file.rs`: header then pixel bytes (the final
`flush` is a no-op on a byte-list sink). -/
def encode_file (img : BWImage) : List ℕ :=
  write_header img.size ++ img.pixels

/-! ## Stream container (`src/file.rs`, `compress` feature)

`DecompressIter` pulls frames out of a `ZlibDecoder`; zlib is an external
collaborator, so the model works directly on the decompressed byte stream.
-/

/-- The mutable state of `DecompressIter`: the bytes still available from the
decoder, plus the `count` and `position` fields. -/
structure DecompressState where
  input : List ℕ
  count : ℕ
  position : ℕ
  deriving DecidableEq, Repr

/-- `DecompressIter::next` from `src/file.rs`: one `parse_file` pull;
`Ok(Some)` bumps `count` by 1 and `position` by the consumed size,
`Ok(None)` ends the sequence, and an error is wrapped as
`BWError::Compression(count as usize, e, position)` without touching
`count` or `position`.  `count` is a `u32` and `position` a `u64` in the
source, so the increments wrap modulo `2^32` and `2^64` respectively
(release semantics), modelled explicitly; the `as usize` report of `count`
is exact on 64-bit targets.  (On error the source leaves the decoder at an
unspecified position; the model keeps the input unchanged, which no claim
depends on.) -/
def decompressNext (st : DecompressState) :
    Option (Except BWError BWImage × DecompressState) :=
  match parse_file st.input with
  | .ok (some ((img, size), rest)) =>
      some (.ok img, ⟨rest, (st.count + 1) % 4294967296,
        (st.position + size) % 18446744073709551616⟩)
  | .ok none => none
  | .error e => some (.error (.Compression st.count e st.position), st)

/-- `DecompressIter::new`: decoder over `input`, `count = 0`, `position = 0`. -/
def decompressInit (input : List ℕ) : DecompressState :=
  ⟨input, 0, 0⟩

/-- The first `n` items yielded by `DecompressIter` from state `st` (fewer if
the sequence ends earlier). -/
def decompressOutputs : ℕ → DecompressState → List (Except BWError BWImage)
  | 0, _ => []
  | n + 1, st =>
      match decompressNext st with
      | none => []
      | some (out, st') => out :: decompressOutputs n st'

/-- Concatenation of the frames written by `compress_imgs` (what the zlib
stream decompresses back to). -/
def encodeList (imgs : List BWImage) : List ℕ :=
  imgs.flatMap encode_file

/-! ## Directional iteration (`src/img.rs`) -/

/-- `IterOutput` from `src/img.rs`. -/
inductive IterOutput where
  | Byte : ℕ → ℕ → IterOutput
  | NewLine : IterOutput
  deriving DecidableEq, Repr

/-- `BWIterState` from `src/img.rs`, the snapshot handed to a direction's
`next`. -/
structure BWIterState where
  size : BWImageSize
  current : ℕ × ℕ
  pixels : List ℕ

/-- `iter_direction::Horizontal::next` from `src/img.rs`.  The byte access
`state.pixels[((y * width + x) / 8) as usize]` is modelled with `getD`
(the in-bounds question is exactly what the safety claim settles). -/
def horizontalNext (state : BWIterState) :
    Option ((ℕ × ℕ) × IterOutput) :=
  let x := state.current.1
  let y := state.current.2
  let width := state.size.width
  let height := state.size.height
  if y ≥ height then none
  else if x ≥ width then some ((0, y + 1), .NewLine)
  else some ((x + 8, y),
    .Byte (state.pixels.getD ((y * width + x) / 8) 0) (min 8 (width - x)))

/-- The body of the `for i in 0..8` loop of `iter_direction::Vertical::next`,
by remaining iterations (`fuel = 8 - i`): returns the bits assembled from
index `i` on together with the final `len` (`8` if the loop completes, the
breaking `i` otherwise).  `pos` is computed in `u32` arithmetic
(`from_byte + i * width_in_byte`, wrapping modulo `2^32` in release builds),
and the guard compares it against `state.pixels.len() as u32`, a truncating
cast — both moduli are modelled explicitly.  The guard is checked before
every access, so the model only indexes positions below the truncated
length. -/
def vloopAux (pixels : List ℕ) (from_byte width_in_byte rev_idx : ℕ) :
    ℕ → ℕ → ℕ × ℕ
  | _, 0 => (0, 8)
  | i, fuel + 1 =>
      let pos := (from_byte + i * width_in_byte) % 4294967296
      if pixels.length % 4294967296 ≤ pos then (0, i)
      else
        let r := vloopAux pixels from_byte width_in_byte rev_idx (i + 1) fuel
        (r.1 ||| ((pixels.getD pos 0 >>> rev_idx) &&& 1) <<< (7 - i), r.2)

/-- The list of `pixels` indices the `for i in 0..8` loop of
`iter_direction::Vertical::next` actually dereferences: the source checks
`pos >= pixels.len() as u32` (and breaks) before every `pixels[pos as usize]`
access, with `pos` in wrapping `u32` arithmetic, so this mirrors `vloopAux`
access for access, moduli included. -/
def vloopReads (pixels : List ℕ) (from_byte width_in_byte : ℕ) :
    ℕ → ℕ → List ℕ
  | _, 0 => []
  | i, fuel + 1 =>
      let pos := (from_byte + i * width_in_byte) % 4294967296
      if pixels.length % 4294967296 ≤ pos then []
      else pos :: vloopReads pixels from_byte width_in_byte (i + 1) fuel

/-- `iter_direction::Vertical::next` from `src/img.rs`.  The source computes
`width_in_byte` as `((width as f64) / 8f64).ceil() as u32`; for every `u32`
width that f64 computation is exact and equals `(width + 7) / 8`.
`from_byte = y * width_in_byte + row_byte` and the position update
`y + len as u32` are `u32` arithmetic and wrap modulo `2^32` (release
semantics), modelled explicitly; `x + 1` in the `NewLine` branch cannot wrap
for `u32`-typed states, since that branch requires `x < width ≤ 2^32 - 1`. -/
def verticalNext (state : BWIterState) :
    Option ((ℕ × ℕ) × IterOutput) :=
  let x := state.current.1
  let y := state.current.2
  let width := state.size.width
  let height := state.size.height
  if x ≥ width then none
  else if y ≥ height then some ((x + 1, 0), .NewLine)
  else
    let width_in_byte := (width + 7) / 8
    let row_byte := x / 8
    let rev_idx_at_byte := 7 - x % 8
    let from_byte := (y * width_in_byte + row_byte) % 4294967296
    let r := vloopAux state.pixels from_byte width_in_byte rev_idx_at_byte 0 8
    some ((x, (y + r.2) % 4294967296), .Byte r.1 r.2)

/-- The iterator driver `BWByteIter::next` run for at most `fuel` steps from
position `p` (size and pixels are fixed for the iterator's lifetime): the
outputs produced, and whether the underlying direction returned `None`
(i.e. the iteration terminated) within the fuel. -/
def runDir (next : BWIterState → Option ((ℕ × ℕ) × IterOutput))
    (size : BWImageSize) (pixels : List ℕ) :
    ℕ → ℕ × ℕ → List IterOutput × Bool
  | 0, _ => ([], false)
  | fuel + 1, p =>
      match next ⟨size, p, pixels⟩ with
      | none => ([], true)
      | some (p', out) =>
          let r := runDir next size pixels fuel p'
          (out :: r.1, r.2)

/-- The Vertical iteration of a `BWImage` terminates: some finite number of
pulls from the initial position `(0, 0)` reaches `None`. -/
def VerticalTerminates (img : BWImage) : Prop :=
  ∃ fuel, (runDir verticalNext img.size img.pixels fuel (0, 0)).2 = true

/-- Decidable equality for `Except` (needed to evaluate parse results). -/
instance {ε α : Type} [DecidableEq ε] [DecidableEq α] :
    DecidableEq (Except ε α) := fun x y =>
  match x, y with
  | .ok a, .ok b =>
      if h : a = b then .isTrue (by rw [h]) else .isFalse (by simp [h])
  | .error a, .error b =>
      if h : a = b then .isTrue (by rw [h]) else .isFalse (by simp [h])
  | .ok _, .error _ => .isFalse (by simp)
  | .error _, .ok _ => .isFalse (by simp)

theorem parse_header_validation (input : List ℕ) (h : 16 ≤ input.length) :
    ((parse_header input = Except.error (.FileHeader magicErrMsg)) ↔
      input.take 4 ≠ MAGIC_NUMBER) ∧
    (input.take 4 = MAGIC_NUMBER →
      ((parse_header input = Except.error (.FileHeader versionErrMsg)) ↔
        fromLe32 ((input.drop 4).take 4) ≠ 1)) ∧
    (input.take 4 = MAGIC_NUMBER → fromLe32 ((input.drop 4).take 4) = 1 →
      parse_header input = Except.ok (some ⟨fromLe32 ((input.drop 8).take 4),
        fromLe32 ((input.drop 12).take 4)⟩)) := by
  have h16 : ¬ input.length < 16 := not_lt.mpr h
  have hmsg : versionErrMsg ≠ magicErrMsg := by decide
  have e1 : (input.take 16).take 4 = input.take 4 := by
    rw [List.take_take]; norm_num
  have e4 : ((input.take 16).drop 4).take 4 = (input.drop 4).take 4 := by
    rw [List.drop_take, List.take_take]; norm_num
  have e8 : ((input.take 16).drop 8).take 4 = (input.drop 8).take 4 := by
    rw [List.drop_take, List.take_take]; norm_num
  have e12 : ((input.take 16).drop 12).take 4 = (input.drop 12).take 4 := by
    rw [List.drop_take, List.take_take]; norm_num
  unfold parse_header
  rw [if_neg h16]
  simp only [e1, e4, e8, e12]
  refine ⟨?_, ?_, ?_⟩
  · by_cases hm : input.take 4 = MAGIC_NUMBER
    · simp only [hm, ne_eq, not_true_eq_false, iff_false]
      rw [if_neg (by simp)]
      split_ifs with hv
      · simp [hmsg]
      · simp [hmsg]
    · simp [hm]
  · intro hm
    rw [if_neg (by simp [hm])]
    by_cases hv : fromLe32 ((input.drop 4).take 4) = 1
    · simp [hv]
    · simp [hv]
  · intro hm hv
    rw [if_neg (by simp [hm]), if_neg (by simp [hv])]

theorem parse_header_validation_witness :
    16 ≤ ([66, 87, 73, 77, 1, 0, 0, 0, 2, 0, 0, 0, 3, 0, 0, 0] : List ℕ).length ∧
    (((parse_header [66, 87, 73, 77, 1, 0, 0, 0, 2, 0, 0, 0, 3, 0, 0, 0] =
        Except.error (.FileHeader magicErrMsg)) ↔
      ([66, 87, 73, 77, 1, 0, 0, 0, 2, 0, 0, 0, 3, 0, 0, 0] : List ℕ).take 4 ≠
        MAGIC_NUMBER) ∧
    (([66, 87, 73, 77, 1, 0, 0, 0, 2, 0, 0, 0, 3, 0, 0, 0] : List ℕ).take 4 =
        MAGIC_NUMBER →
      ((parse_header [66, 87, 73, 77, 1, 0, 0, 0, 2, 0, 0, 0, 3, 0, 0, 0] =
          Except.error (.FileHeader versionErrMsg)) ↔
        fromLe32 ((([66, 87, 73, 77, 1, 0, 0, 0, 2, 0, 0, 0, 3, 0, 0, 0] :
          List ℕ).drop 4).take 4) ≠ 1)) ∧
    (([66, 87, 73, 77, 1, 0, 0, 0, 2, 0, 0, 0, 3, 0, 0, 0] : List ℕ).take 4 =
        MAGIC_NUMBER →
      fromLe32 ((([66, 87, 73, 77, 1, 0, 0, 0, 2, 0, 0, 0, 3, 0, 0, 0] :
        List ℕ).drop 4).take 4) = 1 →
      parse_header [66, 87, 73, 77, 1, 0, 0, 0, 2, 0, 0, 0, 3, 0, 0, 0] =
        Except.ok (some ⟨fromLe32 ((([66, 87, 73, 77, 1, 0, 0, 0, 2, 0, 0, 0,
          3, 0, 0, 0] : List ℕ).drop 8).take 4),
          fromLe32 ((([66, 87, 73, 77, 1, 0, 0, 0, 2, 0, 0, 0, 3, 0, 0, 0] :
            List ℕ).drop 12).take 4)⟩))) :=
  ⟨by decide, parse_header_validation _ (by decide)⟩

/-- Core round-trip lemma: a frame written by `encode_file` parses back to the
same image, consuming `16 + get_padded_bytes_len` bytes and leaving the
following bytes untouched. -/
theorem parse_file_encode_file (img : BWImage) (rest : List ℕ)
    (hw : img.size.width < 4294967296) (hh : img.size.height < 4294967296)
    (hpix : img.pixels.length = img.size.get_padded_bytes_len) :
    parse_file (encode_file img ++ rest) =
      Except.ok (some ((img, img.size.get_padded_bytes_len + 16), rest)) := by
  obtain ⟨⟨w, h⟩, pixels⟩ := img
  have hw2 : w < 4294967296 := hw
  have hh2 : h < 4294967296 := hh
  have hpix2 : pixels.length = (w + 7) / 8 * h := hpix
  have hdr : encode_file ⟨⟨w, h⟩, pixels⟩ ++ rest =
      66 :: 87 :: 73 :: 77 :: 1 :: 0 :: 0 :: 0 ::
      (w % 256) :: (w / 256 % 256) :: (w / 65536 % 256) ::
      (w / 16777216 % 256) :: (h % 256) :: (h / 256 % 256) ::
      (h / 65536 % 256) :: (h / 16777216 % 256) :: (pixels ++ rest) := by
    simp [encode_file, write_header, MAGIC_NUMBER, le32]
  rw [hdr]
  have hw' : fromLe32 [w % 256, w / 256 % 256, w / 65536 % 256,
      w / 16777216 % 256] = w := by
    simp [fromLe32]
    omega
  have hh' : fromLe32 [h % 256, h / 256 % 256, h / 65536 % 256,
      h / 16777216 % 256] = h := by
    simp [fromLe32]
    omega
  have hph : parse_header (66 :: 87 :: 73 :: 77 :: 1 :: 0 :: 0 :: 0 ::
      (w % 256) :: (w / 256 % 256) :: (w / 65536 % 256) ::
      (w / 16777216 % 256) :: (h % 256) :: (h / 256 % 256) ::
      (h / 65536 % 256) :: (h / 16777216 % 256) :: (pixels ++ rest)) =
      Except.ok (some ⟨w, h⟩) := by
    unfold parse_header
    rw [if_neg (by simp)]
    simp only [List.take_succ_cons, List.drop_succ_cons, List.take_zero,
      List.drop_zero]
    rw [if_neg (by simp [MAGIC_NUMBER])]
    rw [if_neg (by simp [fromLe32])]
    simp [hw', hh']
  unfold parse_file
  rw [hph]
  simp only [List.drop_succ_cons, List.drop_zero,
    BWImageSize.get_padded_bytes_len]
  rw [if_neg (by simp only [List.length_append, not_lt]; omega)]
  have htake : (pixels ++ rest).take ((w + 7) / 8 * h) = pixels := by
    rw [← hpix2, List.take_left]
  have hdrop : (pixels ++ rest).drop ((w + 7) / 8 * h) = rest := by
    rw [← hpix2, List.drop_left]
  rw [htake, hdrop]

theorem encode_parse_roundtrip (img : BWImage)
    (hw0 : 0 < img.size.width) (hh0 : 0 < img.size.height)
    (hw : img.size.width < 4294967296) (hh : img.size.height < 4294967296)
    (hpix : img.pixels.length = img.size.get_padded_bytes_len) :
    parse_file (encode_file img) =
      Except.ok (some ((img, 16 + img.size.get_padded_bytes_len), ([] : List ℕ))) := by
  have h := parse_file_encode_file img [] hw hh hpix
  rw [List.append_nil] at h
  rw [h, Nat.add_comm]

theorem encode_parse_roundtrip_witness :
    parse_file (encode_file ⟨⟨1, 1⟩, [0]⟩) =
      Except.ok (some ((⟨⟨1, 1⟩, [0]⟩, 16 + BWImageSize.get_padded_bytes_len ⟨1, 1⟩),
        ([] : List ℕ))) :=
  encode_parse_roundtrip ⟨⟨1, 1⟩, [0]⟩ (by decide) (by decide) (by decide)
    (by decide) (by decide)

/-- Induction helper for the stream container: pulling through the frames of
`encodeList imgs` followed by an erroring tail yields the images in order and
then an error wrapped with the running count and position offsets, both
subject to their machine-width wrap (`count : u32`, `position : u64`). -/
theorem decompressOutputs_frames (junk : List ℕ) (e : BWError)
    (hjunk : parse_file junk = Except.error e) :
    ∀ (imgs : List BWImage),
      (∀ img ∈ imgs, img.size.width < 4294967296 ∧
        img.size.height < 4294967296 ∧
        img.pixels.length = img.size.get_padded_bytes_len) →
      ∀ (c p : ℕ), c < 4294967296 → p < 18446744073709551616 →
      decompressOutputs (imgs.length + 1) ⟨encodeList imgs ++ junk, c, p⟩ =
        imgs.map Except.ok ++
          [Except.error (.Compression ((c + imgs.length) % 4294967296) e
            ((p + (imgs.map fun i => 16 + i.size.get_padded_bytes_len).sum) %
              18446744073709551616))]
  | [], _, c, p, hc, hp => by
      simp only [encodeList, List.flatMap_nil, List.nil_append,
        List.length_nil, List.map_nil, List.sum_nil, Nat.add_zero]
      rw [Nat.mod_eq_of_lt hc, Nat.mod_eq_of_lt hp]
      simp [decompressOutputs, decompressNext, hjunk]
  | img :: rest, hvalid, c, p, hc, hp => by
      obtain ⟨hw, hh, hpix⟩ := hvalid img (by simp)
      have henc : encodeList (img :: rest) ++ junk =
          encode_file img ++ (encodeList rest ++ junk) := by
        simp [encodeList, List.append_assoc]
      have hparse := parse_file_encode_file img (encodeList rest ++ junk)
        hw hh hpix
      have hrec := decompressOutputs_frames junk e hjunk rest
        (fun i hi => hvalid i (by simp [hi])) ((c + 1) % 4294967296)
        ((p + (img.size.get_padded_bytes_len + 16)) % 18446744073709551616)
        (Nat.mod_lt _ (by norm_num)) (Nat.mod_lt _ (by norm_num))
      have hnext : decompressNext ⟨encodeList (img :: rest) ++ junk, c, p⟩ =
          some (Except.ok img, ⟨encodeList rest ++ junk,
            (c + 1) % 4294967296,
            (p + (img.size.get_padded_bytes_len + 16)) %
              18446744073709551616⟩) := by
        unfold decompressNext
        rw [henc, hparse]
      have hlen : (img :: rest).length + 1 = rest.length + 1 + 1 := by simp
      rw [hlen, decompressOutputs, hnext]
      show Except.ok img :: decompressOutputs (rest.length + 1)
          ⟨encodeList rest ++ junk, (c + 1) % 4294967296,
            (p + (img.size.get_padded_bytes_len + 16)) %
              18446744073709551616⟩ = _
      rw [hrec]
      simp only [List.map_cons, List.cons_append, List.sum_cons,
        List.cons.injEq, true_and]
      have hx : ((c + 1) % 4294967296 + rest.length) % 4294967296 =
          (c + (img :: rest).length) % 4294967296 := by
        rw [Nat.mod_add_mod]
        simp only [List.length_cons]
        have e1 : c + 1 + rest.length = c + (rest.length + 1) := by omega
        rw [e1]
      have hy : ((p + (img.size.get_padded_bytes_len + 16)) %
            18446744073709551616 +
            (List.map (fun i => 16 + i.size.get_padded_bytes_len) rest).sum) %
            18446744073709551616 =
          (p + (16 + img.size.get_padded_bytes_len +
            (List.map (fun i => 16 + i.size.get_padded_bytes_len) rest).sum)) %
            18446744073709551616 := by
        rw [Nat.mod_add_mod]
        have e2 : p + (img.size.get_padded_bytes_len + 16) +
            (List.map (fun i => 16 + i.size.get_padded_bytes_len) rest).sum =
            p + (16 + img.size.get_padded_bytes_len +
              (List.map (fun i => 16 + i.size.get_padded_bytes_len)
                rest).sum) := by
          omega
        rw [e2]
      rw [hx, hy]

theorem decompress_error_attribution (imgs : List BWImage) (junk : List ℕ)
    (e : BWError)
    (hvalid : ∀ img ∈ imgs, img.size.width < 4294967296 ∧
      img.size.height < 4294967296 ∧
      img.pixels.length = img.size.get_padded_bytes_len)
    (hcnt : imgs.length < 4294967296)
    (hsum : (imgs.map fun i => 16 + i.size.get_padded_bytes_len).sum <
      18446744073709551616)
    (hjunk : parse_file junk = Except.error e) :
    decompressOutputs (imgs.length + 1)
        (decompressInit (encodeList imgs ++ junk)) =
      imgs.map Except.ok ++
        [Except.error (.Compression imgs.length e
          ((imgs.map fun i => 16 + i.size.get_padded_bytes_len).sum))] ∧
    (∀ st : DecompressState, parse_file st.input = Except.ok none →
      decompressNext st = none) := by
  constructor
  · have h := decompressOutputs_frames junk e hjunk imgs hvalid 0 0
      (by norm_num) (by norm_num)
    rw [Nat.zero_add, Nat.zero_add, Nat.mod_eq_of_lt hcnt,
      Nat.mod_eq_of_lt hsum] at h
    exact h
  · intro st h
    simp [decompressNext, h]

theorem decompress_error_attribution_witness :
    decompressOutputs (([⟨⟨1, 1⟩, [0]⟩] : List BWImage).length + 1)
        (decompressInit (encodeList [⟨⟨1, 1⟩, [0]⟩] ++ List.replicate 16 0)) =
      ([⟨⟨1, 1⟩, [0]⟩] : List BWImage).map Except.ok ++
        [Except.error (.Compression ([⟨⟨1, 1⟩, [0]⟩] : List BWImage).length
          (.FileHeader magicErrMsg)
          ((([⟨⟨1, 1⟩, [0]⟩] : List BWImage).map
            fun i => 16 + i.size.get_padded_bytes_len).sum))] ∧
    (∀ st : DecompressState, parse_file st.input = Except.ok none →
      decompressNext st = none) :=
  decompress_error_attribution [⟨⟨1, 1⟩, [0]⟩] (List.replicate 16 0)
    (.FileHeader magicErrMsg) (by decide) (by decide) (by decide) (by decide)

/-- After exactly `2^32` successfully decoded frames the `u32` `count` wraps
to 0, so the error on the next pull is attributed to image index 0 even
though `2^32` prior images were decoded: the unconditional index claim is
false of the program. -/
theorem decompress_count_wraps_at_2pow32 :
    decompressOutputs (4294967296 + 1)
        (decompressInit (encodeList
          (List.replicate 4294967296 ⟨⟨0, 0⟩, []⟩) ++ List.replicate 16 0)) =
      (List.replicate 4294967296 (⟨⟨0, 0⟩, []⟩ : BWImage)).map Except.ok ++
        [Except.error (.Compression 0 (.FileHeader magicErrMsg)
          68719476736)] ∧
    (List.replicate 4294967296 (⟨⟨0, 0⟩, []⟩ : BWImage)).length =
      4294967296 ∧
    (0 : ℕ) ≠ 4294967296 := by
  refine ⟨?_, List.length_replicate _ _, by norm_num⟩
  have h := decompressOutputs_frames (List.replicate 16 0)
    (.FileHeader magicErrMsg) (by decide)
    (List.replicate 4294967296 ⟨⟨0, 0⟩, []⟩)
    (fun img hi => by
      rw [List.eq_of_mem_replicate hi]
      exact ⟨by norm_num, by norm_num, by
        simp [BWImageSize.get_padded_bytes_len]⟩)
    0 0 (by norm_num) (by norm_num)
  rw [List.length_replicate] at h
  have hsum : ((List.replicate 4294967296 (⟨⟨0, 0⟩, []⟩ : BWImage)).map
      fun i => 16 + i.size.get_padded_bytes_len).sum = 68719476736 := by
    rw [List.map_replicate, List.sum_replicate]
    norm_num [BWImageSize.get_padded_bytes_len]
  rw [hsum] at h
  have hc0 : (0 + 4294967296) % 4294967296 = 0 := by norm_num
  have hp0 : (0 + 68719476736) % 18446744073709551616 = 68719476736 := by
    norm_num
  rw [hc0, hp0] at h
  exact h

theorem horizontal_access_in_bounds (size : BWImageSize) (pixels : List ℕ)
    (x y : ℕ) (hlen : size.get_padded_bytes_len ≤ pixels.length)
    (hx : x < size.width) (hy : y < size.height) :
    (y * size.width + x) / 8 < pixels.length ∧
    horizontalNext ⟨size, (x, y), pixels⟩ = some ((x + 8, y),
      .Byte (pixels.getD ((y * size.width + x) / 8) 0)
        (min 8 (size.width - x))) := by
  simp only [BWImageSize.get_padded_bytes_len] at hlen
  set w := size.width with hw_def
  set h := size.height with hh_def
  have h1 : y * w + x < w * h := by
    calc y * w + x < y * w + w := by omega
      _ = (y + 1) * w := by ring
      _ ≤ h * w := Nat.mul_le_mul_right w (by omega)
      _ = w * h := by ring
  have h2 : (y * w + x) / 8 < (w + 7) / 8 * h := by
    have hrlt : w % 8 < 8 := Nat.mod_lt _ (by norm_num)
    have h4 : w * h = 8 * (w / 8 * h) + w % 8 * h := by
      calc w * h = (8 * (w / 8) + w % 8) * h := by rw [Nat.div_add_mod]
        _ = 8 * (w / 8 * h) + w % 8 * h := by ring
    by_cases hr0 : w % 8 = 0
    · have hc : (w + 7) / 8 = w / 8 := by omega
      rw [hr0] at h4
      simp only [Nat.zero_mul, Nat.add_zero] at h4
      rw [hc]
      omega
    · have hc : (w + 7) / 8 = w / 8 + 1 := by omega
      have h9 : (w + 7) / 8 * h = w / 8 * h + h := by rw [hc]; ring
      have h10 : w % 8 * h ≤ 7 * h := Nat.mul_le_mul_right h (by omega)
      rw [h9]
      omega
  refine ⟨by omega, ?_⟩
  simp [horizontalNext, Nat.not_le.mpr hx, Nat.not_le.mpr hy]

theorem horizontal_access_in_bounds_witness :
    (1 * 9 + 8) / 8 < ([0, 0, 0, 0] : List ℕ).length ∧
    horizontalNext ⟨⟨9, 2⟩, (8, 1), [0, 0, 0, 0]⟩ = some ((8 + 8, 1),
      .Byte (([0, 0, 0, 0] : List ℕ).getD ((1 * 9 + 8) / 8) 0) (min 8 (9 - 8))) :=
  horizontal_access_in_bounds ⟨9, 2⟩ [0, 0, 0, 0] 8 1 (by decide) (by decide)
    (by decide)

/-- `chunksAux` does not depend on the fuel once it covers the list length. -/
theorem chunksAux_congr {α : Type} (n : ℕ) (hn : 0 < n) :
    ∀ (f1 f2 : ℕ) (l : List α), l.length ≤ f1 → l.length ≤ f2 →
      chunksAux n f1 l = chunksAux n f2 l
  | 0, f2, l, h1, _ => by
      have : l = [] := List.length_eq_zero.mp (Nat.le_zero.mp h1)
      subst this
      cases f2 <;> rfl
  | f1 + 1, f2, l, h1, h2 => by
      match l with
      | [] => cases f2 <;> rfl
      | a :: t =>
          match f2 with
          | 0 => exact absurd h2 (by simp)
          | f2 + 1 =>
              simp only [chunksAux]
              congr 1
              exact chunksAux_congr n hn f1 f2 ((a :: t).drop n)
                (by simp at h1 ⊢; omega) (by simp at h2 ⊢; omega)

/-- Unfolding equation for `chunksList` on a nonempty list. -/
theorem chunksList_cons_eq {α : Type} (n : ℕ) (hn : 0 < n) (l : List α)
    (hl : l ≠ []) :
    chunksList n l = l.take n :: chunksList n (l.drop n) := by
  match l with
  | [] => exact absurd rfl hl
  | a :: t =>
      show chunksAux n (t.length + 1) (a :: t) = _
      simp only [chunksAux]
      congr 1
      exact chunksAux_congr n hn t.length ((a :: t).drop n).length
        ((a :: t).drop n) (by simp; omega) le_rfl

/-- The number of chunks is the ceiling of `length / n`. -/
theorem chunksList_length {α : Type} (n : ℕ) (hn : 0 < n) :
    ∀ (k : ℕ) (l : List α), l.length ≤ k →
      (chunksList n l).length = (l.length + (n - 1)) / n
  | 0, l, h1 => by
      have : l = [] := List.length_eq_zero.mp (Nat.le_zero.mp h1)
      subst this
      show ([] : List (List α)).length = (0 + (n - 1)) / n
      rw [Nat.zero_add, Nat.div_eq_of_lt (by omega)]
      rfl
  | k + 1, l, h1 => by
      by_cases hl : l = []
      · subst hl
        show ([] : List (List α)).length = (0 + (n - 1)) / n
        rw [Nat.zero_add, Nat.div_eq_of_lt (by omega)]
        rfl
      · rw [chunksList_cons_eq n hn l hl, List.length_cons,
          chunksList_length n hn k (l.drop n)
            (by simp; omega), List.length_drop]
        have hlpos : 0 < l.length := List.length_pos.mpr hl
        by_cases hsm : l.length ≤ n
        · have e1 : l.length - n = 0 := by omega
          rw [e1, Nat.zero_add, Nat.div_eq_of_lt (by omega)]
          have e2 : (l.length + (n - 1)) / n = 1 := by
            apply Nat.div_eq_of_lt_le <;> omega
          rw [e2]
        · have e3 : l.length + (n - 1) = (l.length - n + (n - 1)) + n := by
            omega
          rw [e3, Nat.add_div_right _ hn]

/-- `mapM` succeeds elementwise when each element maps to `some`. -/
theorem mapM_eq_some_map {α β : Type} (f : α → Option β) (g : α → β) :
    ∀ l : List α, (∀ a ∈ l, f a = some (g a)) → l.mapM f = some (l.map g)
  | [], _ => rfl
  | a :: t, h => by
      rw [List.mapM_cons, h a (by simp),
        mapM_eq_some_map f g t (fun x hx => h x (by simp [hx]))]
      rfl

/-- `mapM` over `Option` succeeds, with the same length, when every element
succeeds. -/
theorem mapM_isSome_of {α β : Type} (f : α → Option β) :
    ∀ l : List α, (∀ a ∈ l, ∃ b, f a = some b) →
      ∃ bs, l.mapM f = some bs ∧ bs.length = l.length
  | [], _ => ⟨[], rfl, rfl⟩
  | a :: t, h => by
      obtain ⟨b, hb⟩ := h a (by simp)
      obtain ⟨bs, hbs, hlen⟩ :=
        mapM_isSome_of f t (fun x hx => h x (by simp [hx]))
      exact ⟨b :: bs, by rw [List.mapM_cons, hb, hbs]; rfl, by simp [hlen]⟩

/-- Every 24-byte chunk of a buffer whose length is a multiple of 3 again has
length a multiple of 3. -/
theorem chunks24_length_mod3 :
    ∀ (k : ℕ) (data : List ℕ), data.length ≤ k → data.length % 3 = 0 →
      ∀ c ∈ chunksList 24 data, c.length % 3 = 0
  | 0, data, h1, _, c, hc => by
      have : data = [] := List.length_eq_zero.mp (Nat.le_zero.mp h1)
      subst this
      simp [chunksList, chunksAux] at hc
  | k + 1, data, h1, h3, c, hc => by
      by_cases hl : data = []
      · subst hl
        simp [chunksList, chunksAux] at hc
      · rw [chunksList_cons_eq 24 (by norm_num) data hl] at hc
        rcases List.mem_cons.mp hc with h | h
        · subst h
          rw [List.length_take]
          omega
        · exact chunks24_length_mod3 k (data.drop 24) (by simp; omega)
            (by simp; omega) c h

/-- On a chunk whose length is a multiple of 3, the inner
`chunks(3) → is_white` pipeline of `RgbData::to_bw_data` succeeds. -/
theorem inner_mapM_some (t : ℕ) :
    ∀ (k : ℕ) (c : List ℕ), c.length ≤ k → c.length % 3 = 0 →
      ∃ bs : List Bool, (chunksList 3 c).mapM (pixIsWhite t) = some bs
  | 0, c, h1, _ => by
      have : c = [] := List.length_eq_zero.mp (Nat.le_zero.mp h1)
      subst this
      exact ⟨[], rfl⟩
  | k + 1, c, h1, h3 => by
      by_cases hl : c = []
      · subst hl
        exact ⟨[], rfl⟩
      · have hlen : 3 ≤ c.length := by
          have := List.length_pos.mpr hl
          omega
        obtain ⟨r, c1, rfl⟩ := List.exists_cons_of_ne_nil hl
        obtain ⟨g, c2, rfl⟩ := List.exists_cons_of_ne_nil
          (show c1 ≠ [] by intro h; subst h; simp at hlen)
        obtain ⟨b, c3, rfl⟩ := List.exists_cons_of_ne_nil
          (show c2 ≠ [] by intro h; subst h; simp at hlen)
        obtain ⟨bs, hbs⟩ := inner_mapM_some t k c3
          (by simp at h1 ⊢; omega) (by simp at h3 ⊢; omega)
        refine ⟨is_white r g b t :: bs, ?_⟩
        rw [chunksList_cons_eq 3 (by norm_num) _ (by simp)]
        simp only [List.take_succ_cons, List.take_zero, List.drop_succ_cons,
          List.drop_zero]
        rw [List.mapM_cons,
          show pixIsWhite t [r, g, b] = some (is_white r g b t) from rfl, hbs]
        rfl

theorem flat_vs_padded_not_iff :
    RgbData.to_bw_data ⟨[0, 0, 0], 1, 1, 128⟩ = some (Except.ok [0]) ∧
    ([0] : List ℕ).length = BWImageSize.get_padded_bytes_len ⟨1, 1⟩ ∧
    (1 : ℕ) % 8 ≠ 0 := by
  refine ⟨by decide, by decide, by decide⟩

theorem to_bw_data_flat_length (w h : ℕ) (data : List ℕ) (t : ℕ)
    (hw : 0 < w) (hh : 0 < h) (hdata : data.length = 3 * w * h) :
    ∃ bytes : List ℕ,
      RgbData.to_bw_data ⟨data, h, w, t⟩ = some (Except.ok bytes) ∧
      bytes.length = (w * h + 7) / 8 ∧
      (bytes.length = BWImageSize.get_padded_bytes_len ⟨w, h⟩ ↔
        (w % 8 = 0 ∨ h * (8 - w % 8) < 8)) := by
  have hd3 : data.length = 3 * (w * h) := by rw [hdata]; ring
  have hmod : data.length % 3 = 0 := by omega
  have hchunk := chunks24_length_mod3 data.length data le_rfl hmod
  have houter : ∀ c ∈ chunksList 24 data, ∃ b,
      (((chunksList 3 c).mapM (pixIsWhite t)).map to_bw_data_byte) = some b := by
    intro c hc
    obtain ⟨bs, hbs⟩ := inner_mapM_some t c.length c le_rfl (hchunk c hc)
    exact ⟨to_bw_data_byte bs, by rw [hbs]; rfl⟩
  obtain ⟨bytes, hbytes, hblen⟩ := mapM_isSome_of _ (chunksList 24 data) houter
  have hcount : (chunksList 24 data).length = (data.length + 23) / 24 :=
    chunksList_length 24 (by norm_num) data.length data le_rfl
  have hlen8 : bytes.length = (w * h + 7) / 8 := by
    rw [hblen, hcount, hdata]
    have hW : 3 * w * h = 3 * (w * h) := by ring
    rw [hW]
    omega
  refine ⟨bytes, ?_, hlen8, ?_⟩
  · rw [RgbData.to_bw_data, hbytes]
    rfl
  · rw [hlen8, BWImageSize.get_padded_bytes_len]
    show (w * h + 7) / 8 = (w + 7) / 8 * h ↔ _
    have hrlt : w % 8 < 8 := Nat.mod_lt _ (by norm_num)
    have h4 : w * h = 8 * (w / 8 * h) + w % 8 * h := by
      calc w * h = (8 * (w / 8) + w % 8) * h := by rw [Nat.div_add_mod]
        _ = 8 * (w / 8 * h) + w % 8 * h := by ring
    by_cases hr0 : w % 8 = 0
    · have hc : (w + 7) / 8 = w / 8 := by omega
      rw [hc]
      simp only [hr0, true_or, iff_true]
      rw [hr0] at h4
      simp only [Nat.zero_mul, Nat.add_zero] at h4
      omega
    · have hc : (w + 7) / 8 = w / 8 + 1 := by omega
      have h9 : (w + 7) / 8 * h = w / 8 * h + h := by rw [hc]; ring
      have h10 : w % 8 * h ≤ 7 * h := Nat.mul_le_mul_right h (by omega)
      have h6 : h * (8 - w % 8) + w % 8 * h = 8 * h := by
        have h7 : (8 - w % 8) + w % 8 = 8 := by omega
        calc h * (8 - w % 8) + w % 8 * h = h * ((8 - w % 8) + w % 8) := by ring
          _ = h * 8 := by rw [h7]
          _ = 8 * h := by ring
      rw [h9]
      simp only [hr0, false_or]
      omega

theorem to_bw_data_flat_length_witness :
    ∃ bytes : List ℕ,
      RgbData.to_bw_data ⟨[0, 0, 0, 0, 0, 0], 2, 1, 128⟩ =
        some (Except.ok bytes) ∧
      bytes.length = (1 * 2 + 7) / 8 ∧
      (bytes.length = BWImageSize.get_padded_bytes_len ⟨1, 2⟩ ↔
        (1 % 8 = 0 ∨ 2 * (8 - 1 % 8) < 8)) :=
  to_bw_data_flat_length 1 2 [0, 0, 0, 0, 0, 0] 128 (by decide) (by decide)
    (by decide)

/-- Every position in `vloopReads` is in bounds: the Vertical loop checks the
(truncated) bound before each access, and the truncated length never exceeds
the real one. -/
theorem vloopReads_in_bounds (pixels : List ℕ) (fb wib : ℕ) :
    ∀ (fuel i : ℕ), ∀ p ∈ vloopReads pixels fb wib i fuel,
      p < pixels.length
  | 0, i, p, hp => by simp [vloopReads] at hp
  | fuel + 1, i, p, hp => by
      by_cases hc : pixels.length % 4294967296 ≤ (fb + i * wib) % 4294967296
      · simp [vloopReads, hc] at hp
      · simp only [vloopReads, if_neg hc, List.mem_cons] at hp
        rcases hp with h | h
        · have hle := Nat.mod_le pixels.length 4294967296
          omega
        · exact vloopReads_in_bounds pixels fb wib fuel (i + 1) p h

/-- The `len` computed by the Vertical loop never exceeds 8. -/
theorem vloopAux_le8 (pixels : List ℕ) (fb wib rev : ℕ) :
    ∀ (fuel i : ℕ), i + fuel = 8 →
      (vloopAux pixels fb wib rev i fuel).2 ≤ 8
  | 0, i, h8 => by simp [vloopAux]
  | fuel + 1, i, h8 => by
      by_cases hc : pixels.length % 4294967296 ≤ (fb + i * wib) % 4294967296
      · simp [vloopAux, hc]
        omega
      · simp only [vloopAux, if_neg hc]
        exact vloopAux_le8 pixels fb wib rev fuel (i + 1) (by omega)

/-- The `len` computed by the Vertical loop starting at index `i` is at
least `i`. -/
theorem vloopAux_ge (pixels : List ℕ) (fb wib rev : ℕ) :
    ∀ (fuel i : ℕ), i + fuel = 8 →
      i ≤ (vloopAux pixels fb wib rev i fuel).2
  | 0, i, h8 => by simp [vloopAux]; omega
  | fuel + 1, i, h8 => by
      by_cases hc : pixels.length % 4294967296 ≤ (fb + i * wib) % 4294967296
      · simp [vloopAux, hc]
      · simp only [vloopAux, if_neg hc]
        have := vloopAux_ge pixels fb wib rev fuel (i + 1) (by omega)
        omega

/-- When the Vertical loop stops short of 8, the breaking position reached
the truncated buffer length. -/
theorem vloopAux_break (pixels : List ℕ) (fb wib rev : ℕ) :
    ∀ (fuel i : ℕ), i + fuel = 8 →
      (vloopAux pixels fb wib rev i fuel).2 < 8 →
      pixels.length % 4294967296 ≤
        (fb + (vloopAux pixels fb wib rev i fuel).2 * wib) % 4294967296
  | 0, i, h8, hlt => by simp [vloopAux] at hlt
  | fuel + 1, i, h8, hlt => by
      by_cases hc : pixels.length % 4294967296 ≤ (fb + i * wib) % 4294967296
      · have hv : (vloopAux pixels fb wib rev i (fuel + 1)).2 = i := by
          simp [vloopAux, hc]
        rw [hv]
        exact hc
      · simp only [vloopAux, if_neg hc] at hlt ⊢
        exact vloopAux_break pixels fb wib rev fuel (i + 1) (by omega) hlt

/-- Before the break index, every loop position is strictly below the
truncated buffer length. -/
theorem vloopAux_cont (pixels : List ℕ) (fb wib rev : ℕ) :
    ∀ (fuel i : ℕ), i + fuel = 8 → ∀ j, i ≤ j →
      j < (vloopAux pixels fb wib rev i fuel).2 →
      (fb + j * wib) % 4294967296 < pixels.length % 4294967296
  | 0, i, h8, j, hij, hj => by
      simp [vloopAux] at hj
      omega
  | fuel + 1, i, h8, j, hij, hj => by
      by_cases hc : pixels.length % 4294967296 ≤ (fb + i * wib) % 4294967296
      · have hv : (vloopAux pixels fb wib rev i (fuel + 1)).2 = i := by
          simp [vloopAux, hc]
        rw [hv] at hj
        omega
      · simp only [vloopAux, if_neg hc] at hj
        by_cases hji : j = i
        · subst hji
          omega
        · exact vloopAux_cont pixels fb wib rev fuel (i + 1) (by omega) j
            (by omega) hj

/-- If the first position is strictly below the truncated length, the
Vertical loop runs at least one iteration. -/
theorem vloopAux_pos (pixels : List ℕ) (fb wib rev : ℕ)
    (hfb : (fb + 0 * wib) % 4294967296 < pixels.length % 4294967296) :
    1 ≤ (vloopAux pixels fb wib rev 0 8).2 := by
  have hc : ¬ (pixels.length % 4294967296 ≤ (fb + 0 * wib) % 4294967296) := by
    omega
  have h8 : (8 : ℕ) = 7 + 1 := rfl
  rw [h8]
  simp only [vloopAux, if_neg hc]
  exact vloopAux_ge pixels fb wib rev 7 1 (by omega)

/-- Under the padded-length invariant the first loop position of a Byte step
is in bounds. -/
theorem vertical_fb_lt (size : BWImageSize) (pixels : List ℕ) (x y : ℕ)
    (hlen : size.get_padded_bytes_len ≤ pixels.length)
    (hx : x < size.width) (hy : y < size.height) :
    y * ((size.width + 7) / 8) + x / 8 < pixels.length := by
  simp only [BWImageSize.get_padded_bytes_len] at hlen
  set w := size.width
  set h := size.height
  have hx8 : x / 8 < (w + 7) / 8 := by omega
  have he : (y + 1) * ((w + 7) / 8) = y * ((w + 7) / 8) + (w + 7) / 8 := by
    ring
  have hmul : (y + 1) * ((w + 7) / 8) ≤ h * ((w + 7) / 8) :=
    Nat.mul_le_mul_right _ (by omega)
  have hcomm : h * ((w + 7) / 8) = (w + 7) / 8 * h := by ring
  omega

/-- Advancing the row cursor cannot wrap: `y + len` stays below `2^32`
whenever the first loop position is in (untruncated) bounds and the buffer
is shorter than `2^32`.  If `y + len` reached `2^32` then `y ≥ 2^32 - 8`
would force `width_in_byte = 1` and `x / 8 = 0`, and the loop position
`y + (pixels.len - y)` would equal the length exactly, so the loop would
have broken earlier. -/
theorem vloop_y_no_wrap (pixels : List ℕ) (wib rev y x8 : ℕ)
    (hwib : 1 ≤ wib) (hx8 : x8 < wib)
    (hfb : y * wib + x8 < pixels.length)
    (hlen32 : pixels.length < 4294967296) :
    y + (vloopAux pixels (y * wib + x8) wib rev 0 8).2 < 4294967296 := by
  by_contra hge
  push_neg at hge
  have hl8 : (vloopAux pixels (y * wib + x8) wib rev 0 8).2 ≤ 8 :=
    vloopAux_le8 pixels (y * wib + x8) wib rev 8 0 (by omega)
  have hy : 4294967288 ≤ y := by omega
  have hywib : y * wib < 4294967296 := by
    have h1 : y * wib ≤ y * wib + x8 := Nat.le_add_right _ _
    omega
  have hwib1 : wib = 1 := by
    by_contra hw2
    have h2 : 2 ≤ wib := by omega
    have h3 : 4294967288 * 2 ≤ y * wib := Nat.mul_le_mul hy h2
    omega
  subst hwib1
  have hx80 : x8 = 0 := by omega
  subst hx80
  have hfbr : y * 1 + 0 = y := by omega
  rw [hfbr] at hfb hge hl8
  have hjlt : pixels.length - y < (vloopAux pixels y 1 rev 0 8).2 := by omega
  have hcont := vloopAux_cont pixels y 1 rev 8 0 rfl (pixels.length - y)
    (by omega) hjlt
  have he : y + (pixels.length - y) * 1 = pixels.length := by omega
  rw [he] at hcont
  omega

/-- Inversion of a Vertical `Byte` step: it only happens strictly inside the
image, `len ≤ 8`, the position advances down by `len` (modulo the `u32`
wrap), and — under the padded-length invariant for a buffer shorter than
`2^32` — a short chunk (`len < 8`) happens only when fewer than 8 rows
remain below `y`. -/
theorem verticalNext_byte_props (size : BWImageSize) (pixels : List ℕ)
    (x y : ℕ) (p' : ℕ × ℕ) (bt l : ℕ)
    (hnext : verticalNext ⟨size, (x, y), pixels⟩ = some (p', .Byte bt l)) :
    x < size.width ∧ y < size.height ∧
    p' = (x, (y + l) % 4294967296) ∧ l ≤ 8 ∧
    (size.get_padded_bytes_len ≤ pixels.length →
      pixels.length < 4294967296 → l < 8 → size.height - y < 8) := by
  by_cases hx : size.width ≤ x
  · simp [verticalNext, hx] at hnext
  by_cases hy : size.height ≤ y
  · simp [verticalNext, hx, hy] at hnext
  simp only [verticalNext, not_le.mp hx, not_le.mp hy] at hnext
  rw [if_neg (by omega), if_neg (by omega)] at hnext
  simp only [Option.some.injEq, Prod.mk.injEq, IterOutput.Byte.injEq] at hnext
  obtain ⟨rfl, hb, hl⟩ := hnext
  refine ⟨by omega, by omega, by rw [hl], ?_, ?_⟩
  · rw [← hl]
    exact vloopAux_le8 pixels ((y * ((size.width + 7) / 8) + x / 8) %
      4294967296) ((size.width + 7) / 8) (7 - x % 8) 8 0 (by omega)
  · intro hlen hlen32 hl8
    have hfblt := vertical_fb_lt size pixels x y hlen (by omega) (by omega)
    have hfbmod : (y * ((size.width + 7) / 8) + x / 8) % 4294967296 =
        y * ((size.width + 7) / 8) + x / 8 :=
      Nat.mod_eq_of_lt (lt_trans hfblt hlen32)
    rw [hfbmod] at hl
    have hbreak := vloopAux_break pixels
      (y * ((size.width + 7) / 8) + x / 8) ((size.width + 7) / 8)
      (7 - x % 8) 8 0 (by omega) (by rw [hl]; exact hl8)
    rw [hl] at hbreak
    have hlenmod : pixels.length % 4294967296 = pixels.length :=
      Nat.mod_eq_of_lt hlen32
    have hmodle : (y * ((size.width + 7) / 8) + x / 8 +
        l * ((size.width + 7) / 8)) % 4294967296 ≤
        y * ((size.width + 7) / 8) + x / 8 + l * ((size.width + 7) / 8) :=
      Nat.mod_le _ _
    simp only [BWImageSize.get_padded_bytes_len] at hlen
    by_contra hge
    have hyl : y + l + 1 ≤ size.height := by omega
    have hexp : (y + l + 1) * ((size.width + 7) / 8) =
        y * ((size.width + 7) / 8) + l * ((size.width + 7) / 8) +
          (size.width + 7) / 8 := by ring
    have hmul : (y + l + 1) * ((size.width + 7) / 8) ≤
        size.height * ((size.width + 7) / 8) := Nat.mul_le_mul_right _ hyl
    have hcomm : size.height * ((size.width + 7) / 8) =
        (size.width + 7) / 8 * size.height := by ring
    have hx8 : x / 8 < (size.width + 7) / 8 := by omega
    omega

/-- Fuel bounded by the lexicographic-style measure
`(width - x) * (height + 9) + (height + 8 - y)` suffices for the Vertical
iteration to reach `None`, provided the pixel buffer is at least the padded
length and shorter than `2^32` (so the row cursor never wraps). -/
theorem runDir_vertical_term (size : BWImageSize) (pixels : List ℕ)
    (hlen : size.get_padded_bytes_len ≤ pixels.length)
    (hlen32 : pixels.length < 4294967296) :
    ∀ (n x y : ℕ),
      (size.width - x) * (size.height + 9) + (size.height + 8 - y) ≤ n →
      (runDir verticalNext size pixels (n + 1) (x, y)).2 = true
  | 0, x, y, hm => by
      have hprod : (size.width - x) * (size.height + 9) = 0 := by omega
      have hx : size.width ≤ x := by
        rcases Nat.mul_eq_zero.mp hprod with h | h
        · omega
        · omega
      have hnext : verticalNext ⟨size, (x, y), pixels⟩ = none := by
        simp [verticalNext, hx]
      simp [runDir, hnext]
  | n + 1, x, y, hm => by
      by_cases hx : size.width ≤ x
      · have hnext : verticalNext ⟨size, (x, y), pixels⟩ = none := by
          simp [verticalNext, hx]
        simp [runDir, hnext]
      by_cases hy : size.height ≤ y
      · have hnext : verticalNext ⟨size, (x, y), pixels⟩ =
            some ((x + 1, 0), .NewLine) := by
          simp [verticalNext, hx, hy]
        have hstep : (runDir verticalNext size pixels (n + 1 + 1) (x, y)).2 =
            (runDir verticalNext size pixels (n + 1) (x + 1, 0)).2 := by
          simp [runDir, hnext]
        rw [hstep]
        have hsub : size.width - x = (size.width - (x + 1)) + 1 := by omega
        have hexp : (size.width - x) * (size.height + 9) =
            (size.width - (x + 1)) * (size.height + 9) + (size.height + 9) := by
          rw [hsub]; ring
        exact runDir_vertical_term size pixels hlen hlen32 n (x + 1) 0
          (by omega)
      · have hfb := vertical_fb_lt size pixels x y hlen (by omega) (by omega)
        have hfbmod : (y * ((size.width + 7) / 8) + x / 8) % 4294967296 =
            y * ((size.width + 7) / 8) + x / 8 :=
          Nat.mod_eq_of_lt (lt_trans hfb hlen32)
        have hlenmod : pixels.length % 4294967296 = pixels.length :=
          Nat.mod_eq_of_lt hlen32
        have hpos := vloopAux_pos pixels
          (y * ((size.width + 7) / 8) + x / 8) ((size.width + 7) / 8)
          (7 - x % 8) (by
            have hz : (y * ((size.width + 7) / 8) + x / 8 +
                0 * ((size.width + 7) / 8)) =
                y * ((size.width + 7) / 8) + x / 8 := by omega
            rw [hz, hlenmod,
              Nat.mod_eq_of_lt (lt_trans hfb hlen32)]
            exact hfb)
        have hwib1 : 1 ≤ (size.width + 7) / 8 := by omega
        have hx8w : x / 8 < (size.width + 7) / 8 := by omega
        have hnw := vloop_y_no_wrap pixels ((size.width + 7) / 8)
          (7 - x % 8) y (x / 8) hwib1 hx8w hfb hlen32
        have hymod : (y + (vloopAux pixels
            (y * ((size.width + 7) / 8) + x / 8) ((size.width + 7) / 8)
            (7 - x % 8) 0 8).2) % 4294967296 =
            y + (vloopAux pixels (y * ((size.width + 7) / 8) + x / 8)
              ((size.width + 7) / 8) (7 - x % 8) 0 8).2 :=
          Nat.mod_eq_of_lt hnw
        have hnext : verticalNext ⟨size, (x, y), pixels⟩ =
            some ((x, y + (vloopAux pixels
                (y * ((size.width + 7) / 8) + x / 8) ((size.width + 7) / 8)
                (7 - x % 8) 0 8).2),
              .Byte (vloopAux pixels (y * ((size.width + 7) / 8) + x / 8)
                ((size.width + 7) / 8) (7 - x % 8) 0 8).1
                (vloopAux pixels (y * ((size.width + 7) / 8) + x / 8)
                  ((size.width + 7) / 8) (7 - x % 8) 0 8).2) := by
          simp only [verticalNext, not_le.mp (by omega : ¬ size.width ≤ x),
            not_le.mp (by omega : ¬ size.height ≤ y)]
          rw [if_neg (by omega), if_neg (by omega), hfbmod, hymod]
        have hstep : (runDir verticalNext size pixels (n + 1 + 1) (x, y)).2 =
            (runDir verticalNext size pixels (n + 1)
              (x, y + (vloopAux pixels
                (y * ((size.width + 7) / 8) + x / 8) ((size.width + 7) / 8)
                (7 - x % 8) 0 8).2)).2 := by
          simp [runDir, hnext]
        rw [hstep]
        exact runDir_vertical_term size pixels hlen hlen32 n x
          (y + (vloopAux pixels (y * ((size.width + 7) / 8) + x / 8)
            ((size.width + 7) / 8) (7 - x % 8) 0 8).2) (by omega)

/-- With too short a pixel buffer the Vertical iterator re-emits the same
state forever: the run flag never becomes true at any fuel. -/
theorem vertical_stuck_aux :
    ∀ fuel : ℕ, (runDir verticalNext ⟨1, 1⟩ [] fuel (0, 0)).2 = false
  | 0 => rfl
  | fuel + 1 => by
      have hnext : verticalNext ⟨⟨1, 1⟩, (0, 0), ([] : List ℕ)⟩ =
          some ((0, 0), .Byte 0 0) := by decide
      simp only [runDir]
      rw [hnext]
      simpa using vertical_stuck_aux fuel

theorem vertical_empty_pixels_diverges :
    ¬ VerticalTerminates ⟨⟨1, 1⟩, []⟩ := by
  rintro ⟨fuel, hf⟩
  rw [vertical_stuck_aux fuel] at hf
  exact Bool.false_ne_true hf

theorem vertical_iteration_safe (img : BWImage)
    (hlen : img.size.get_padded_bytes_len ≤ img.pixels.length)
    (hlen32 : img.pixels.length < 4294967296) :
    VerticalTerminates img ∧
    (∀ x y p' bt l, verticalNext ⟨img.size, (x, y), img.pixels⟩ =
        some (p', .Byte bt l) →
      l ≤ 8 ∧ (l < 8 → img.size.height - y < 8)) ∧
    (∀ fb wib i fuel, ∀ p ∈ vloopReads img.pixels fb wib i fuel,
      p < img.pixels.length) := by
  refine ⟨⟨(img.size.width - 0) * (img.size.height + 9) +
      (img.size.height + 8 - 0) + 1,
    runDir_vertical_term img.size img.pixels hlen hlen32 _ 0 0 le_rfl⟩,
    ?_, ?_⟩
  · intro x y p' bt l hnext
    have h := verticalNext_byte_props img.size img.pixels x y p' bt l hnext
    exact ⟨h.2.2.2.1, fun hl8 => h.2.2.2.2 hlen hlen32 hl8⟩
  · intro fb wib i fuel p hp
    exact vloopReads_in_bounds img.pixels fb wib fuel i p hp

theorem vertical_iteration_safe_witness :
    VerticalTerminates ⟨⟨8, 2⟩, [255, 255]⟩ ∧
    (∀ x y p' bt l, verticalNext ⟨⟨8, 2⟩, (x, y), [255, 255]⟩ =
        some (p', .Byte bt l) →
      l ≤ 8 ∧ (l < 8 → 2 - y < 8)) ∧
    (∀ fb wib i fuel, ∀ p ∈ vloopReads [255, 255] fb wib i fuel,
      p < ([255, 255] : List ℕ).length) :=
  vertical_iteration_safe ⟨⟨8, 2⟩, [255, 255]⟩ (by decide) (by decide)

/-- Taking `3 n` flat bytes is taking `n` pixels. -/
theorem take_flatten3 : ∀ (ps : List (ℕ × ℕ × ℕ)) (n : ℕ),
    (flatten3 ps).take (3 * n) = flatten3 (ps.take n)
  | ps, 0 => by simp [flatten3]
  | [], n + 1 => by simp [flatten3]
  | p :: rest, n + 1 => by
      have h3 : 3 * (n + 1) = 3 * n + 1 + 1 + 1 := by ring
      simp only [flatten3, List.flatMap_cons, List.take_succ_cons,
        List.cons_append, List.nil_append, h3, List.take_succ_cons]
      rw [← flatten3]
      rw [take_flatten3 rest n]
      rfl

/-- Dropping `3 n` flat bytes is dropping `n` pixels. -/
theorem drop_flatten3 : ∀ (ps : List (ℕ × ℕ × ℕ)) (n : ℕ),
    (flatten3 ps).drop (3 * n) = flatten3 (ps.drop n)
  | ps, 0 => by simp [flatten3]
  | [], n + 1 => by simp [flatten3]
  | p :: rest, n + 1 => by
      have h3 : 3 * (n + 1) = 3 * n + 1 + 1 + 1 := by ring
      simp only [flatten3, List.flatMap_cons, List.cons_append,
        List.nil_append, h3, List.drop_succ_cons]
      rw [← flatten3, drop_flatten3 rest n]
      rfl

/-- 24-byte chunking of a flat RGB buffer is 8-pixel chunking of the pixel
list, flattened chunkwise. -/
theorem chunks24_flatten3 : ∀ (k : ℕ) (ps : List (ℕ × ℕ × ℕ)),
    ps.length ≤ k →
    chunksList 24 (flatten3 ps) = (chunksList 8 ps).map flatten3
  | 0, ps, h1 => by
      have : ps = [] := List.length_eq_zero.mp (Nat.le_zero.mp h1)
      subst this
      rfl
  | k + 1, ps, h1 => by
      by_cases hl : ps = []
      · subst hl
        rfl
      · have hfl : flatten3 ps ≠ [] := by
          obtain ⟨p, rest, rfl⟩ := List.exists_cons_of_ne_nil hl
          simp [flatten3]
        rw [chunksList_cons_eq 24 (by norm_num) _ hfl,
          chunksList_cons_eq 8 (by norm_num) _ hl]
        have ht : (flatten3 ps).take 24 = flatten3 (ps.take 8) :=
          take_flatten3 ps 8
        have hd : (flatten3 ps).drop 24 = flatten3 (ps.drop 8) :=
          drop_flatten3 ps 8
        rw [ht, hd, List.map_cons,
          chunks24_flatten3 k (ps.drop 8) (by simp; omega)]

/-- 3-byte chunking of a flat RGB buffer yields exactly the pixel triples. -/
theorem chunks3_flatten3 : ∀ (qs : List (ℕ × ℕ × ℕ)),
    chunksList 3 (flatten3 qs) = qs.map fun p => [p.1, p.2.1, p.2.2]
  | [] => rfl
  | p :: rest => by
      have hfl : flatten3 (p :: rest) ≠ [] := by simp [flatten3]
      rw [chunksList_cons_eq 3 (by norm_num) _ hfl]
      have ht : (flatten3 (p :: rest)).take 3 = [p.1, p.2.1, p.2.2] := by
        simp [flatten3]
      have hd : (flatten3 (p :: rest)).drop 3 = flatten3 rest := by
        simp [flatten3]
      rw [ht, hd, chunks3_flatten3 rest, List.map_cons]

/-- The inner pipeline of `RgbData::to_bw_data` on one flattened 8-pixel
chunk produces the packed byte of those pixels' `is_white` bits. -/
theorem inner_on_flatten3 (t : ℕ) (qs : List (ℕ × ℕ × ℕ)) :
    ((chunksList 3 (flatten3 qs)).mapM (pixIsWhite t)).map to_bw_data_byte =
      some (to_bw_data_byte (qs.map (isw3 t))) := by
  rw [chunks3_flatten3]
  have hm := mapM_eq_some_map (pixIsWhite t)
    (fun c => is_white (c.getD 0 0) (c.getD 1 0) (c.getD 2 0) t)
    (qs.map fun p => [p.1, p.2.1, p.2.2]) ?_
  · rw [hm, List.map_map]
    have : ((fun c => is_white (c.getD 0 0) (c.getD 1 0) (c.getD 2 0) t) ∘
        fun p : ℕ × ℕ × ℕ => [p.1, p.2.1, p.2.2]) = isw3 t := by
      funext p
      rfl
    rw [this]
    rfl
  · intro a ha
    obtain ⟨p, hp, rfl⟩ := List.mem_map.mp ha
    rfl

/-- `mapM` over a mapped list succeeds elementwise. -/
theorem mapM_map_eq_some {α β γ : Type} (f : α → Option γ) (m : β → α)
    (g : β → γ) :
    ∀ l : List β, (∀ b ∈ l, f (m b) = some (g b)) →
      (l.map m).mapM f = some (l.map g)
  | [], _ => rfl
  | b :: t, h => by
      rw [List.map_cons, List.mapM_cons, h b (by simp),
        mapM_map_eq_some f m g t (fun x hx => h x (by simp [hx]))]
      rfl

/-- Chunking commutes with `map`. -/
theorem chunksList_map_comm {α β : Type} (n : ℕ) (hn : 0 < n) (f : α → β) :
    ∀ (k : ℕ) (l : List α), l.length ≤ k →
      chunksList n (l.map f) = (chunksList n l).map (List.map f)
  | 0, l, h1 => by
      have : l = [] := List.length_eq_zero.mp (Nat.le_zero.mp h1)
      subst this
      rfl
  | k + 1, l, h1 => by
      by_cases hl : l = []
      · subst hl
        rfl
      · rw [chunksList_cons_eq n hn _ (by simp [hl]),
          chunksList_cons_eq n hn l hl, List.map_cons, ← List.map_take,
          ← List.map_drop,
          chunksList_map_comm n hn f k (l.drop n) (by simp; omega)]

/-- `RgbData::to_bw_data` on a flattened pixel list packs the flat `is_white`
bit stream 8 pixels per byte, with no row boundary handling. -/
theorem rgb_to_bw_data_flatten3 (t h w : ℕ) :
    ∀ (k : ℕ) (ps : List (ℕ × ℕ × ℕ)), ps.length ≤ k →
    RgbData.to_bw_data ⟨flatten3 ps, h, w, t⟩ =
      some (Except.ok (packFlat (ps.map (isw3 t))))
  | 0, ps, h1 => by
      have : ps = [] := List.length_eq_zero.mp (Nat.le_zero.mp h1)
      subst this
      rfl
  | k + 1, ps, h1 => by
      by_cases hl : ps = []
      · subst hl
        rfl
      · have hmain : (chunksList 24 (flatten3 ps)).mapM (fun c =>
            ((chunksList 3 c).mapM (pixIsWhite t)).map to_bw_data_byte) =
            some ((chunksList 8 ps).map fun q =>
              to_bw_data_byte (q.map (isw3 t))) := by
          rw [chunks24_flatten3 ps.length ps le_rfl]
          exact mapM_map_eq_some _ flatten3 _ (chunksList 8 ps)
            (fun q hq => inner_on_flatten3 t q)
        rw [RgbData.to_bw_data, hmain]
        have hpack : packFlat (ps.map (isw3 t)) =
            (chunksList 8 ps).map fun q => to_bw_data_byte (q.map (isw3 t)) := by
          rw [packFlat,
            chunksList_map_comm 8 (by norm_num) (isw3 t) ps.length ps le_rfl,
            List.map_map]
          rfl
        rw [hpack]
        rfl


/-- Chunking splits across an append at a chunk boundary. -/
theorem chunksList_append {α : Type} (n : ℕ) (hn : 0 < n) :
    ∀ (k : ℕ) (l1 l2 : List α), l1.length ≤ k → n ∣ l1.length →
      chunksList n (l1 ++ l2) = chunksList n l1 ++ chunksList n l2
  | 0, l1, l2, h1, _ => by
      have : l1 = [] := List.length_eq_zero.mp (Nat.le_zero.mp h1)
      subst this
      rfl
  | k + 1, l1, l2, h1, hdvd => by
      by_cases hl : l1 = []
      · subst hl
        rfl
      · have hn1 : n ≤ l1.length := by
          have := List.length_pos.mpr hl
          rcases hdvd with ⟨c, hc⟩
          rcases Nat.eq_zero_or_pos c with h0 | h0
          · rw [h0, Nat.mul_zero] at hc
            omega
          · calc n = n * 1 := by ring
              _ ≤ n * c := Nat.mul_le_mul_left n h0
              _ = l1.length := hc.symm
        by_cases hl2 : l1 ++ l2 = []
        · rw [List.append_eq_nil] at hl2
          exact absurd hl2.1 hl
        rw [chunksList_cons_eq n hn _ hl2, chunksList_cons_eq n hn l1 hl,
          List.take_append_of_le_length hn1,
          List.drop_append_of_le_length hn1, List.cons_append,
          chunksList_append n hn k (l1.drop n) l2 (by simp; omega)
            (by simp only [List.length_drop]; exact Nat.dvd_sub' hdvd ⟨1, by ring⟩)]

/-- A `NormalImage` loop step that does not flush: the pixel joins `buf`. -/
theorem normalStep_no_flush (w t : ℕ) (buf : List Bool) (B : List ℕ)
    (x : ℕ) (pix : ℕ × ℕ × ℕ) (h1 : x ≠ w - 1)
    (h2 : (buf ++ [isw3 t pix]).length ≠ 8) :
    normalStep w t (buf, B) (x, pix) = (buf ++ [isw3 t pix], B) := by
  simp only [normalStep, isw3]
  rw [if_neg]
  push_neg
  exact ⟨h1, h2⟩

/-- A `NormalImage` loop step that flushes: `buf` is packed and cleared. -/
theorem normalStep_flush (w t : ℕ) (buf : List Bool) (B : List ℕ)
    (x : ℕ) (pix : ℕ × ℕ × ℕ)
    (h : x = w - 1 ∨ (buf ++ [isw3 t pix]).length = 8) :
    normalStep w t (buf, B) (x, pix) =
      ([], B ++ [to_bw_data_byte (buf ++ [isw3 t pix])]) := by
  simp only [normalStep, isw3]
  rw [if_pos]
  exact h

/-- One full row of width `8 * m` starting at a block boundary: the
`NormalImage` loop flushes exactly every 8 pixels, so the row contributes the
flat 8-pixel packing of its `is_white` bits and leaves `buf` empty. -/
theorem normal_row_blocks (w t : ℕ) (g : ℕ → ℕ × ℕ × ℕ) :
    ∀ (m x0 : ℕ), x0 + 8 * m = w → ∀ B : List ℕ,
      List.foldl (normalStep w t) ([], B)
        ((List.range' x0 (8 * m)).map fun x => (x, g x)) =
      ([], B ++ (chunksList 8 ((List.range' x0 (8 * m)).map fun x =>
        isw3 t (g x))).map to_bw_data_byte)
  | 0, x0, hx0, B => by simp [chunksList, chunksAux]
  | m + 1, x0, hx0, B => by
      have hsplit : List.range' x0 (8 * (m + 1)) =
          List.range' x0 8 ++ List.range' (x0 + 8) (8 * m) := by
        rw [List.range'_append_1]
        congr 1
      have hr8 : List.range' x0 8 =
          [x0, x0 + 1, x0 + 2, x0 + 3, x0 + 4, x0 + 5, x0 + 6, x0 + 7] := rfl
      have hne0 : x0 ≠ w - 1 := by omega
      have hne1 : x0 + 1 ≠ w - 1 := by omega
      have hne2 : x0 + 2 ≠ w - 1 := by omega
      have hne3 : x0 + 3 ≠ w - 1 := by omega
      have hne4 : x0 + 4 ≠ w - 1 := by omega
      have hne5 : x0 + 5 ≠ w - 1 := by omega
      have hne6 : x0 + 6 ≠ w - 1 := by omega
      rw [hsplit, List.map_append, List.foldl_append, hr8]
      simp only [List.map_cons, List.map_nil]
      rw [List.foldl_cons, normalStep_no_flush w t _ _ _ _ hne0 (by simp)]
      simp only [List.nil_append]
      rw [List.foldl_cons, normalStep_no_flush w t _ _ _ _ hne1 (by simp)]
      simp only [List.cons_append, List.nil_append]
      rw [List.foldl_cons, normalStep_no_flush w t _ _ _ _ hne2 (by simp)]
      simp only [List.cons_append, List.nil_append]
      rw [List.foldl_cons, normalStep_no_flush w t _ _ _ _ hne3 (by simp)]
      simp only [List.cons_append, List.nil_append]
      rw [List.foldl_cons, normalStep_no_flush w t _ _ _ _ hne4 (by simp)]
      simp only [List.cons_append, List.nil_append]
      rw [List.foldl_cons, normalStep_no_flush w t _ _ _ _ hne5 (by simp)]
      simp only [List.cons_append, List.nil_append]
      rw [List.foldl_cons, normalStep_no_flush w t _ _ _ _ hne6 (by simp)]
      simp only [List.cons_append, List.nil_append]
      rw [List.foldl_cons, normalStep_flush w t _ _ _ _ (Or.inr (by simp)),
        List.foldl_nil]
      simp only [List.cons_append, List.nil_append]
      rw [normal_row_blocks w t g m (x0 + 8) (by omega)]
      have hchunk : chunksList 8
          ((x0 :: (x0 + 1) :: (x0 + 2) :: (x0 + 3) :: (x0 + 4) :: (x0 + 5) ::
            (x0 + 6) :: (x0 + 7) :: List.range' (x0 + 8) (8 * m)).map
            fun x => isw3 t (g x)) =
          [[isw3 t (g x0), isw3 t (g (x0 + 1)), isw3 t (g (x0 + 2)),
            isw3 t (g (x0 + 3)), isw3 t (g (x0 + 4)), isw3 t (g (x0 + 5)),
            isw3 t (g (x0 + 6)), isw3 t (g (x0 + 7))]] ++
          chunksList 8 ((List.range' (x0 + 8) (8 * m)).map fun x =>
            isw3 t (g x)) := by
        show chunksList 8
          (([x0, x0 + 1, x0 + 2, x0 + 3, x0 + 4, x0 + 5, x0 + 6, x0 + 7] ++
            List.range' (x0 + 8) (8 * m)).map fun x => isw3 t (g x)) = _
        rw [List.map_append]
        simp only [List.map_cons, List.map_nil]
        rw [chunksList_append 8 (by norm_num) 8 _ _ (by simp) (by simp)]
        rfl
      rw [hchunk, List.map_append]
      simp [List.append_assoc]

/-- Total length of the row-major enumeration. -/
theorem pixrows_length {α : Type} (w : ℕ) (f : ℕ → ℕ → α) :
    ∀ hh : ℕ,
      ((List.range hh).flatMap fun y =>
        (List.range w).map fun x => f x y).length = hh * w
  | 0 => by simp
  | hh + 1 => by
      rw [List.range_succ, List.flatMap_append]
      simp only [List.flatMap_cons, List.flatMap_nil, List.append_nil,
        List.length_append, List.length_map, List.length_range,
        pixrows_length w f hh]
      ring

/-- The whole `NormalImage` loop, row by row: when the width is a multiple
of 8, the accumulated bytes are the flat 8-pixel packing of the row-major
`is_white` stream. -/
theorem normal_image_fold (w t : ℕ) (px : ℕ → ℕ → ℕ × ℕ × ℕ)
    (hw : w % 8 = 0) :
    ∀ (hh : ℕ) (B : List ℕ),
      List.foldl (normalStep w t) ([], B)
        ((List.range hh).flatMap fun y =>
          (List.range w).map fun x => (x, px x y)) =
      ([], B ++ (chunksList 8 ((List.range hh).flatMap fun y =>
        (List.range w).map fun x => isw3 t (px x y))).map to_bw_data_byte)
  | 0, B => by simp [chunksList, chunksAux]
  | hh + 1, B => by
      rw [List.range_succ, List.flatMap_append, List.flatMap_append,
        List.foldl_append, normal_image_fold w t px hw hh B]
      simp only [List.flatMap_cons, List.flatMap_nil, List.append_nil]
      have hrange : List.range w = List.range' 0 (8 * (w / 8)) := by
        rw [List.range_eq_range']
        congr 1
        omega
      rw [hrange, normal_row_blocks w t (fun x => px x hh) (w / 8) 0
        (by omega)]
      have hA8 : (8 : ℕ) ∣ ((List.range hh).flatMap fun y =>
          List.map (fun x => isw3 t (px x y))
            (List.range' 0 (8 * (w / 8)))).length := by
        rw [← hrange, pixrows_length]
        exact Dvd.dvd.mul_left (by omega) hh
      rw [chunksList_append 8 (by norm_num) _ _ _ le_rfl hA8,
        List.map_append, List.append_assoc]

/-- For widths divisible by 8, `NormalImage::to_bw_data` computes the flat
8-pixel packing of the row-major `is_white` stream. -/
theorem normal_to_bw_data_eq (w h t : ℕ) (px : ℕ → ℕ → ℕ × ℕ × ℕ)
    (hw : w % 8 = 0) :
    NormalImage.to_bw_data ⟨w, h, px, t⟩ =
      packFlat ((pixList px w h).map (isw3 t)) := by
  rw [NormalImage.to_bw_data, pixelsRowMajor]
  rw [normal_image_fold w t px hw h []]
  rw [packFlat]
  have hbools : (pixList px w h).map (isw3 t) =
      (List.range h).flatMap fun y =>
        (List.range w).map fun x => isw3 t (px x y) := by
    rw [pixList]
    simp [List.map_flatMap, List.map_map]
    rfl
  rw [hbools]
  rfl

theorem normal_rgb_agree_multiple_of_8 (w h t : ℕ)
    (px : ℕ → ℕ → ℕ × ℕ × ℕ) (hw : w % 8 = 0) :
    RgbData.to_bw_data ⟨rgbFlatten px w h, h, w, t⟩ =
      some (Except.ok (NormalImage.to_bw_data ⟨w, h, px, t⟩)) := by
  have h1 : rgbFlatten px w h = flatten3 (pixList px w h) := by
    rw [rgbFlatten, flatten3, pixList]
    simp [List.flatMap_assoc, List.flatMap_map]
  rw [h1, rgb_to_bw_data_flatten3 t h w (pixList px w h).length
    (pixList px w h) le_rfl, normal_to_bw_data_eq w h t px hw]

theorem normal_rgb_agree_multiple_of_8_witness :
    RgbData.to_bw_data
        ⟨rgbFlatten (fun _ _ => (255, 255, 255)) 8 1, 1, 8, 128⟩ =
      some (Except.ok (NormalImage.to_bw_data
        ⟨8, 1, fun _ _ => (255, 255, 255), 128⟩)) :=
  normal_rgb_agree_multiple_of_8 8 1 128 (fun _ _ => (255, 255, 255))
    (by decide)

theorem normal_vs_rgb_differ :
    rgbFlatten (fun _ _ => (255, 255, 255)) 1 2 =
      [255, 255, 255, 255, 255, 255] ∧
    NormalImage.to_bw_data ⟨1, 2, fun _ _ => (255, 255, 255), 128⟩ =
      [128, 128] ∧
    RgbData.to_bw_data ⟨[255, 255, 255, 255, 255, 255], 2, 1, 128⟩ =
      some (Except.ok [192]) ∧
    ([128, 128] : List ℕ) ≠ [192] := by
  refine ⟨by decide, by decide, by decide, by decide⟩

theorem parse_header_truncated_gives_none :
    parse_header (List.replicate 15 66) = Except.ok none := by decide

theorem parse_header_short_input_none (input : List ℕ)
    (h : input.length < 16) : parse_header input = Except.ok none := by
  simp [parse_header, h]

theorem parse_header_short_input_none_witness :
    parse_header [66] = Except.ok none :=
  parse_header_short_input_none [66] (by decide)

theorem to_bw_data_mismatched_geometry_is_ok :
    RgbData.to_bw_data ⟨[0, 0, 0], 1, 2, 128⟩ = some (Except.ok [0]) := by
  decide

theorem is_white_threshold_rule :
    is_white 255 255 255 128 = true ∧ gray_value 255 255 255 = 255 ∧
    (∀ t, is_white 0 0 0 t = false) ∧ gray_value 0 0 0 = 0 ∧
    (∀ r g b t, gray_value r g b = t → is_white r g b t = false) := by
  refine ⟨by decide, by decide, ?_, by decide, ?_⟩
  · intro t
    have h0 : gray_value 0 0 0 = 0 := by decide
    simp [is_white, h0]
  · intro r g b t h
    simp [is_white, h]
